import Mathlib

/-!
# vi-firmware: write-request framing, CAN receive dispatch and the bit-field codec

A shallow embedding of `src/cantranslator.cpp` (the translation core of the
CAN gateway) together with the collaborators it calls.

* Bytes are natural numbers below 256; a receive buffer is a `List Nat` and a
  read past its end is reported as `Outcome.outOfBounds`.
* The target is little-endian: a `uint32_t`/`uint64_t` object is the number
  whose memory bytes, lowest address first, are its base-256 digits.
* Calls into collaborators whose code is outside `cantranslator.cpp`
  (`sendCanSignal`, command handlers, `decodeCanMessage`, the transports) are
  recorded, with their arguments, in the call log of the machine state.
* `debug` output is not part of the state; the reads performed to produce it
  are.
-/

namespace ViFirmware

/-! ## Data model -/

/-- Modelled from the spec: the `CanMessage` type declaration (canutil.h) is
missing; a message is a 32-bit unsigned `id` and an 8-byte payload held in a
64-bit word `data`. -/
structure CanMessage where
  id : Nat
  data : Nat
  deriving DecidableEq, Repr

/-- Modelled from the spec: the queue type generated by the missing queue
macros is a bounded FIFO: a fixed `capacity` and the queued items, oldest
first. -/
structure Queue where
  capacity : Nat
  items : List CanMessage
  deriving DecidableEq, Repr

/-- Modelled from the spec: the missing `QUEUE_PUSH` macro; the push fails and
the item is dropped when the queue is full, it never blocks. -/
def QUEUE_PUSH (q : Queue) (m : CanMessage) : Queue :=
  if q.items.length < q.capacity then { q with items := q.items ++ [m] } else q

/-- Modelled from the spec: the missing `QUEUE_EMPTY` macro. -/
def QUEUE_EMPTY (q : Queue) : Bool :=
  q.items.isEmpty

/-- Modelled from the spec: the missing `QUEUE_POP` macro; removes and returns
the oldest item, and signals "empty" when there is none. -/
def QUEUE_POP (q : Queue) : Option (CanMessage × Queue) :=
  match q.items with
  | [] => none
  | m :: rest => some (m, { q with items := rest })

/-- Modelled from the spec: the `CanBus` type declaration is missing; a bus
owns one receive queue and one send queue. -/
structure CanBus where
  receiveQueue : Queue
  sendQueue : Queue
  deriving DecidableEq, Repr

/-- Modelled from the spec: the `CanSignal` type declaration is missing; the
floating-point fields (factor, offset, min, max) are left out. -/
structure CanSignal where
  genericName : String
  messageId : Nat
  bitPosition : Nat
  bitSize : Nat
  writable : Bool
  deriving DecidableEq, Repr

/-- Modelled from the spec: the `CanCommand` type declaration is missing; a
command is a name and a handler, the handler being identified by a number. -/
structure CanCommand where
  genericName : String
  handler : Nat
  deriving DecidableEq, Repr

/-- Modelled from the spec: the cJSON item type is missing; an item of a parsed
object carries its field name, its string value and its integer value (a C
`int`). The string value is a `char*`: it is null (`none`) for an item that is
not a string. -/
structure cJSON where
  string : String
  valuestring : Option String
  valueint : Int
  deriving DecidableEq, Repr

/-- A call into a collaborator, with its arguments. -/
inductive Call where
  | sendCanSignal (signal : CanSignal) (value : cJSON) (signals : List CanSignal)
  | commandHandler (command : CanCommand) (name : Option String) (value : cJSON)
      (signals : List CanSignal)
  | decodeCanMessage (id : Nat) (data : Nat)
  | processListenerQueues
  | readFromHost
  | readFromSerial
  | processCanWriteQueue (bus : Nat)
  deriving DecidableEq, Repr

/-- The mutable state the translation core works on: the bus array returned by
`getCanBuses()` and the log of the collaborator calls made so far. -/
structure State where
  buses : List CanBus
  calls : List Call
  deriving DecidableEq, Repr

/-- The static catalog returned by `getSignals()` and `getCommands()`. -/
structure Catalog where
  signals : List CanSignal
  commands : List CanCommand
  deriving DecidableEq, Repr

/-- The result of running code that hands a string pointer to the C library:
it returns, or it has passed a null pointer to `strtoull`, which is undefined
behaviour. -/
inductive Run (α : Type) where
  | returned (a : α)
  | nullString
  deriving DecidableEq, Repr

/-- The result of running code that reads a buffer and may loop. -/
inductive Outcome where
  | finished (s : State)
  | outOfBounds (index : Nat)
  | outOfFuel
  deriving DecidableEq, Repr

/-! ## Little-endian object representation -/

/-- The number whose memory bytes, lowest address first, are `bytes`. -/
def ofBytesLE : List Nat → Nat
  | [] => 0
  | b :: rest => b + 256 * ofBytesLE rest

/-- The first `n` memory bytes, lowest address first, of the number `v`. -/
def bytesLE : Nat → Nat → List Nat
  | 0, _ => []
  | n + 1, v => v % 256 :: bytesLE n (v / 256)

/-- The `__builtin_bswap64` intrinsic: reverses the eight bytes of a 64-bit
word. -/
def bswap64 (x : Nat) : Nat :=
  ofBytesLE (bytesLE 8 (x % 2 ^ 64)).reverse

/-- The send queue of a bus after `QUEUE_PUSH` of `m`. -/
def pushSend (m : CanMessage) (bus : CanBus) : CanBus :=
  { bus with sendQueue := QUEUE_PUSH bus.sendQueue m }

/-- The statement `QUEUE_PUSH(CanMessage, &getCanBuses()[0].sendQueue, m)`. -/
def pushSendQueue0 (s : State) (m : CanMessage) : State :=
  { s with buses := s.buses.modifyHead (pushSend m) }

/-! ## Binary write requests -/

/-- The packet length constant of `receiveBinaryWriteRequest`. -/
def BINARY_CAN_WRITE_PACKET_LENGTH : Nat := 15

/-- Reads `count` consecutive bytes from `start`; `Except.error i` when byte
`i` is past the end of the buffer. -/
def readBytes (message : List Nat) (start : Nat) : Nat → Except Nat (List Nat)
  | 0 => .ok []
  | count + 1 =>
    match message[start]? with
    | none => .error start
    | some b =>
      match readBytes message (start + 1) count with
      | .error i => .error i
      | .ok rest => .ok (b :: rest)

/-- The delimiter test
`message[index] != '{' || message[index+5] != '|' || message[index+14] != '}'`
with C's left-to-right short-circuit evaluation. -/
def frameCorrupted (message : List Nat) (index : Nat) : Except Nat Bool :=
  match message[index]? with
  | none => .error index
  | some b0 =>
    if b0 ≠ 123 then .ok true
    else match message[index + 5]? with
      | none => .error (index + 5)
      | some b5 =>
        if b5 ≠ 124 then .ok true
        else match message[index + 14]? with
          | none => .error (index + 14)
          | some b14 => .ok (decide (b14 ≠ 125))

/-- The result of one evaluation of the loop condition of
`receiveBinaryWriteRequest` followed, when it holds, by one loop body. -/
inductive ScanStep where
  | exit
  | next (index : Nat) (s : State)
  | fault (index : Nat)
  deriving DecidableEq, Repr

/-- One iteration of the `while` loop of `receiveBinaryWriteRequest`. -/
def scanStep (message : List Nat) (index : Nat) (s : State) : ScanStep :=
  match message[index]? with
  | none => .fault index
  | some b =>
    if b ≠ 33 ∧ index + BINARY_CAN_WRITE_PACKET_LENGTH < 64 then
      match frameCorrupted message index with
      | .error i => .fault i
      | .ok true =>
        -- the 16-byte dump, then `continue` with the index unchanged
        match readBytes message index 16 with
        | .error i => .fault i
        | .ok _ => .next index s
      | .ok false =>
        match readBytes message (index + 1) 4 with
        | .error i => .fault i
        | .ok idBytes =>
          match readBytes message (index + 6) 8 with
          | .error i => .fault i
          | .ok dataBytes =>
            .next (index + BINARY_CAN_WRITE_PACKET_LENGTH)
              (pushSendQueue0 s
                { id := ofBytesLE idBytes, data := ofBytesLE dataBytes })
    else .exit

/-- The `while` loop of `receiveBinaryWriteRequest`, run for at most `fuel`
evaluations of its condition. -/
def scanLoop (message : List Nat) : Nat → Nat → State → Outcome
  | 0, _, _ => .outOfFuel
  | fuel + 1, index, s =>
    match scanStep message index s with
    | .exit => .finished s
    | .fault i => .outOfBounds i
    | .next index' s' => scanLoop message fuel index' s'

/-- The function `receiveBinaryWriteRequest`: the scan starts at index 0. -/
def receiveBinaryWriteRequest (fuel : Nat) (message : List Nat) (s : State) : Outcome :=
  scanLoop message fuel 0 s

/-! ## JSON write requests -/

/-- Modelled from the spec: the JSON library is missing; `getField(object,
name)` returns the item of the parsed object stored under `name`, or none. A
parsed object is the list of its items. -/
def cJSON_GetObjectItem (root : List cJSON) (name : String) : Option cJSON :=
  root.find? (fun item => item.string == name)

/-- The C library predicate `isspace` on a character code ("C" locale). -/
def isspace (c : Nat) : Bool :=
  c = 32 || (9 ≤ c && c ≤ 13)

/-- The value of a character code as a digit: `0-9`, then `a-z` or `A-Z` for
10 to 35. -/
def digitValue (c : Nat) : Option Nat :=
  if 48 ≤ c ∧ c ≤ 57 then some (c - 48)
  else if 97 ≤ c ∧ c ≤ 122 then some (c - 87)
  else if 65 ≤ c ∧ c ≤ 90 then some (c - 55)
  else none

/-- The digit loop of `strtoull`: accumulates digits of the base until the
first character that is not one. -/
def strtoullDigits (base : Nat) (acc : Nat) : List Nat → Nat
  | [] => acc
  | c :: rest =>
    match digitValue c with
    | some d => if d < base then strtoullDigits base (acc * base + d) rest else acc
    | none => acc

/-- Drops the optional `0x` or `0X` prefix that `strtoull` accepts in base
16. -/
def dropHexPrefix (base : Nat) : List Nat → List Nat
  | 48 :: 120 :: rest => if base = 16 then rest else 48 :: 120 :: rest
  | 48 :: 88 :: rest => if base = 16 then rest else 48 :: 88 :: rest
  | cs => cs

/-- The optional sign that `strtoull` accepts: whether it is a minus sign, and
the characters after it. -/
def takeSign : List Nat → Bool × List Nat
  | 45 :: rest => (true, rest)
  | 43 :: rest => (false, rest)
  | cs => (false, cs)

/-- The result of `strtoull` from the sign and the value of the digits: it
saturates at `ULLONG_MAX`, and a minus sign negates it in the unsigned type. -/
def strtoullResult (negative : Bool) (v : Nat) : Nat :=
  if 2 ^ 64 ≤ v then 2 ^ 64 - 1
  else if negative then (2 ^ 64 - v) % 2 ^ 64
  else v

/-- The C library function `strtoull(s, &end, base)` for an explicit base:
leading white space, an optional sign, an optional hexadecimal prefix, then
digits. -/
def strtoull (s : String) (base : Nat) : Nat :=
  let signed := takeSign ((s.data.map Char.toNat).dropWhile isspace)
  strtoullResult signed.1 (strtoullDigits base 0 (dropHexPrefix base signed.2))

/-- The function `receiveRawWriteRequest`. The string of the `data` item is
handed to `strtoull` without a test: when the item is not a string the pointer
is null. -/
def receiveRawWriteRequest (idObject : cJSON) (root : List cJSON) (s : State) : Run State :=
  let id : Nat := (idObject.valueint % 2 ^ 32).toNat
  match cJSON_GetObjectItem root "data" with
  | none => .returned s
  | some dataObject =>
    match dataObject.valuestring with
    | none => .nullString
    | some dataString =>
      let data := bswap64 (strtoull dataString 16)
      .returned (pushSendQueue0 s { id := id, data := data })

/-- Modelled from the spec: `lookupSignal` is missing; exact name match, and
with `writable` set only signals marked writable are eligible. The name is the
`char*` the caller passes on; a null name is the name of no signal. -/
def lookupSignal (name : Option String) (signals : List CanSignal) (writable : Bool) :
    Option CanSignal :=
  signals.find?
    (fun signal => some signal.genericName == name && (!writable || signal.writable))

/-- Modelled from the spec: `lookupCommand` is missing; exact name match. The
name is the `char*` the caller passes on; a null name is the name of no
command. -/
def lookupCommand (name : Option String) (commands : List CanCommand) : Option CanCommand :=
  commands.find? (fun command => some command.genericName == name)

/-- Appends a collaborator call to the call log. -/
def record (s : State) (c : Call) : State :=
  { s with calls := s.calls ++ [c] }

/-- The function `receiveTranslatedWriteRequest`. -/
def receiveTranslatedWriteRequest (catalog : Catalog) (nameObject : cJSON)
    (root : List cJSON) (s : State) : State :=
  let name := nameObject.valuestring
  match cJSON_GetObjectItem root "value" with
  | none => s
  | some value =>
    let signal := lookupSignal name catalog.signals true
    let command := lookupCommand name catalog.commands
    match signal with
    | some signal => record s (.sendCanSignal signal value catalog.signals)
    | none =>
      match command with
      | some command => record s (.commandHandler command name value catalog.signals)
      | none => s

/-- The function `receiveJsonWriteRequest`; the JSON parser `cJSON_Parse` is a
parameter. When it returns, the result is `foundMessage` and the state
afterwards. -/
def receiveJsonWriteRequest (cJSON_Parse : List Nat → Option (List cJSON))
    (catalog : Catalog) (message : List Nat) (s : State) : Run (Bool × State) :=
  match cJSON_Parse message with
  | some root =>
    match cJSON_GetObjectItem root "name" with
    | none =>
      match cJSON_GetObjectItem root "id" with
      | none => .returned (true, s)
      | some idObject =>
        match receiveRawWriteRequest idObject root s with
        | .nullString => .nullString
        | .returned s' => .returned (true, s')
    | some nameObject =>
      .returned (true, receiveTranslatedWriteRequest catalog nameObject root s)
  | none => .returned (false, s)

/-! ## Receiving from the buses -/

/-- The function `receiveCan` on one bus: returns the bus afterwards and the
collaborator calls it made. -/
def receiveCan (bus : CanBus) : CanBus × List Call :=
  if !QUEUE_EMPTY bus.receiveQueue then
    match QUEUE_POP bus.receiveQueue with
    | some (message, queue) =>
      ({ bus with receiveQueue := queue }, [.decodeCanMessage message.id message.data])
    | none => (bus, [])
  else (bus, [])

/-- The first `for` loop of `loop()`: `receiveCan(&getCanBuses()[i])` for
every bus in index order. -/
def receiveAllCan : List CanBus → List CanBus × List Call
  | [] => ([], [])
  | bus :: rest =>
    let first := receiveCan bus
    let others := receiveAllCan rest
    (first.1 :: others.1, first.2 ++ others.2)

/-- The function `loop()` (built with UART support): the receive pass, the
listener queues, the two transports, then one write-queue pass per bus. -/
def loop (s : State) : State :=
  let received := receiveAllCan s.buses
  { buses := received.1,
    calls := s.calls ++ received.2
      ++ [.processListenerQueues, .readFromHost, .readFromSerial]
      ++ (List.range received.1.length).map .processCanWriteQueue }

/-! ## Bit-field codec -/

/-- The byte walk of `getBitField`: from bit position `pos`, with `remaining`
bits still to read, takes the bits of the current byte that belong to the
range, masks them out and shifts them into the 64-bit accumulator; none when
the byte is outside the buffer. -/
def getBitFieldWalk (buffer : List Nat) : Nat → Nat → Nat → Nat → Option Nat
  | 0, _, _, acc => some acc
  | fuel + 1, pos, remaining, acc =>
    if remaining = 0 then some acc
    else
      match buffer[pos / 8]? with
      | none => none
      | some byte =>
        let offset := pos % 8
        let count := min (8 - offset) remaining
        let bits := (byte / 2 ^ (8 - offset - count)) % 2 ^ count
        getBitFieldWalk buffer fuel (pos + count) (remaining - count)
          ((acc * 2 ^ count + bits) % 2 ^ 64)

/-- Modelled from the spec: `getBitField` (bitfield.c) is missing; it walks the
span byte by byte and, for each byte the range touches, masks out the relevant
bits and shifts them into an accumulating result, and it fails rather than read
a bit outside the buffer. Every step consumes at least one bit, so `numBits`
steps always suffice. -/
def getBitField (buffer : List Nat) (startBit numBits : Nat) : Option Nat :=
  getBitFieldWalk buffer numBits startBit numBits 0

/-- Bit `j` of a buffer in big-endian, byte-major, MSB-first numbering: bit 0
is the most significant bit of byte 0 and bit 8 that of byte 1. -/
def bitAt (buffer : List Nat) (j : Nat) : Nat :=
  (buffer.getD (j / 8) 0 / 2 ^ (7 - j % 8)) % 2

/-- The right-aligned unsigned integer formed by the `numBits` bits from
`startBit`, read in order. -/
def bitsInOrder (buffer : List Nat) (startBit : Nat) : Nat → Nat
  | 0 => 0
  | n + 1 => 2 * bitsInOrder buffer startBit n + bitAt buffer (startBit + n)

/-! ## The binary wire format, as the host writes it -/

/-- A binary write request: the id bytes and the payload bytes of one frame,
in buffer order. -/
structure BinaryFrame where
  id : List Nat
  payload : List Nat
  deriving DecidableEq, Repr

/-- A frame is well formed when it has 4 id bytes and 8 payload bytes. -/
def BinaryFrame.WellFormed (f : BinaryFrame) : Prop :=
  f.id.length = 4 ∧ f.payload.length = 8 ∧ (∀ b ∈ f.id, b < 256) ∧ ∀ b ∈ f.payload, b < 256

/-- The 15 bytes of a frame: `{`, the id, `|`, the payload, `}`. -/
def BinaryFrame.bytes (f : BinaryFrame) : List Nat :=
  123 :: (f.id ++ 124 :: (f.payload ++ [125]))

/-- The CAN message whose id and data hold, in memory order, the id and
payload bytes of the frame. -/
def BinaryFrame.toCanMessage (f : BinaryFrame) : CanMessage :=
  { id := ofBytesLE f.id, data := ofBytesLE f.payload }

/-- Frames packed back-to-back. -/
def packFrames : List BinaryFrame → List Nat
  | [] => []
  | f :: rest => f.bytes ++ packFrames rest

/-- The scan index and state after `n` completed iterations of the loop of
`receiveBinaryWriteRequest`, none when the loop has ended before. -/
def scanAfter (message : List Nat) (s : State) : Nat → Option (Nat × State)
  | 0 => some (0, s)
  | n + 1 =>
    match scanAfter message s n with
    | none => none
    | some (index, s') =>
      match scanStep message index s' with
      | .next index' s'' => some (index', s'')
      | _ => none

/-- A 64-byte buffer whose first byte is `{` and whose byte 5 is not `|`. -/
def corruptedBuffer : List Nat :=
  123 :: List.replicate 63 0

/-- A 15-byte buffer that holds exactly one well-formed frame. -/
def singleFrameBuffer : List Nat :=
  [123, 1, 2, 3, 4, 124, 1, 2, 3, 4, 5, 6, 7, 8, 125]

instance (f : BinaryFrame) : Decidable f.WellFormed := by
  unfold BinaryFrame.WellFormed
  infer_instance

/-- A bus with empty queues of capacity 8. -/
def idleBus : CanBus :=
  { receiveQueue := { capacity := 8, items := [] }, sendQueue := { capacity := 8, items := [] } }

/-- A bus whose send queue, of capacity 1, is full. -/
def fullBus : CanBus :=
  { receiveQueue := { capacity := 8, items := [] },
    sendQueue := { capacity := 1, items := [⟨9, 9⟩] } }

/-- A frame with id bytes 1 to 4 and payload bytes 1 to 8. -/
def countingFrame : BinaryFrame :=
  { id := [1, 2, 3, 4], payload := [1, 2, 3, 4, 5, 6, 7, 8] }

/-- A frame whose id and payload bytes are themselves delimiter and sentinel
values. -/
def delimiterFrame : BinaryFrame :=
  { id := [33, 123, 124, 125], payload := [33, 33, 123, 123, 124, 124, 125, 125] }

/-- A 64-byte buffer: two packed frames, the sentinel, then 33 bytes that look
like the start of further frames. -/
def twoFrameBuffer : List Nat :=
  packFrames [countingFrame, delimiterFrame] ++ 33 :: List.replicate 33 123

/-! ## Hexadecimal strings, as the host writes them -/

/-- The value of a character as a hexadecimal digit: `0-9`, `a-f` or `A-F`. -/
def hexDigitValue (c : Char) : Option Nat :=
  if 48 ≤ c.toNat ∧ c.toNat ≤ 57 then some (c.toNat - 48)
  else if 97 ≤ c.toNat ∧ c.toNat ≤ 102 then some (c.toNat - 97 + 10)
  else if 65 ≤ c.toNat ∧ c.toNat ≤ 70 then some (c.toNat - 65 + 10)
  else none

/-- The number a sequence of hexadecimal digits denotes, most significant
digit first. -/
def hexNumber (digits : List Nat) : Nat :=
  digits.foldl (fun acc d => 16 * acc + d) 0

/-- The bytes a sequence of hexadecimal digits writes: byte `i` is written by
digits `2i` and `2i+1`. -/
def hexPairs : List Nat → List Nat
  | d1 :: d2 :: rest => (16 * d1 + d2) :: hexPairs rest
  | _ => []

/-- A catalog with a writable signal `X`, a read-only signal `Y` and a command
for each of the two names. -/
def sampleCatalog : Catalog :=
  { signals := [⟨"X", 1, 0, 8, true⟩, ⟨"Y", 1, 8, 8, false⟩],
    commands := [⟨"X", 7⟩, ⟨"Y", 8⟩] }

/-- The parsed object of `{"id":291,"data":"0102030405060708"}`. -/
def rawWriteObject : List cJSON :=
  [⟨"id", none, 291⟩, ⟨"data", some "0102030405060708", 0⟩]

/-- The parsed object of a write to `X` with value 5 that also carries the
fields of a raw write. -/
def namedWriteObject : List cJSON :=
  [⟨"name", some "X", 0⟩, ⟨"value", none, 5⟩, ⟨"id", none, 291⟩,
    ⟨"data", some "0102030405060708", 0⟩]

/-- The parsed object of `{"name":"X"}`: a named write without a value. -/
def missingValueObject : List cJSON :=
  [⟨"name", some "X", 0⟩, ⟨"id", none, 291⟩, ⟨"data", some "0102030405060708", 0⟩]

/-- A bus after its oldest received message, if any, has been removed. -/
def withoutOldest (bus : CanBus) : CanBus :=
  { bus with receiveQueue := { bus.receiveQueue with items := bus.receiveQueue.items.tail } }

/-- The decode call for the oldest received message of a bus, if any. -/
def decodeOfOldest (bus : CanBus) : Option Call :=
  bus.receiveQueue.items.head?.map (fun m => Call.decodeCanMessage m.id m.data)

/-- A state with three buses: two messages received on bus 0, none on bus 1,
one on bus 2. -/
def busyState : State :=
  { buses := [⟨⟨4, [⟨1, 2⟩, ⟨3, 4⟩]⟩, ⟨4, []⟩⟩, ⟨⟨4, []⟩, ⟨4, []⟩⟩, ⟨⟨4, [⟨5, 6⟩]⟩, ⟨4, []⟩⟩],
    calls := [] }

/-! ## Lemmas on byte representations and buffer reads -/

theorem bytesLE_ofBytesLE (l : List Nat) (h : ∀ b ∈ l, b < 256) :
    bytesLE l.length (ofBytesLE l) = l := by
  induction l with
  | nil => rfl
  | cons b rest ih =>
    have hb : b < 256 := h b (List.mem_cons_self _ _)
    have hrest : ∀ x ∈ rest, x < 256 := fun x hx => h x (List.mem_cons_of_mem _ hx)
    have h1 : (b + 256 * ofBytesLE rest) % 256 = b := by omega
    have h2 : (b + 256 * ofBytesLE rest) / 256 = ofBytesLE rest := by omega
    simp only [List.length_cons, ofBytesLE, bytesLE, h1, h2, ih hrest]

theorem getElem?_append_offset (front l : List Nat) (j : Nat) :
    (front ++ l)[front.length + j]? = l[j]? := by
  rw [List.getElem?_append_right (Nat.le_add_right _ _)]
  simp

theorem readBytes_append_offset (front l bs : List Nat) (j count : Nat)
    (h : readBytes l j count = .ok bs) :
    readBytes (front ++ l) (front.length + j) count = .ok bs := by
  induction count generalizing j bs with
  | zero => simpa [readBytes] using h
  | succ n ih =>
    simp only [readBytes, getElem?_append_offset, Nat.add_assoc] at h ⊢
    cases hj : l[j]? with
    | none => simp [hj] at h
    | some b =>
      simp only [hj] at h ⊢
      cases hr : readBytes l (j + 1) n with
      | error i => simp [hr] at h
      | ok tail =>
        simp only [hr] at h
        simp only [ih tail (j + 1) hr]
        exact h

theorem readBytes_ok (message : List Nat) (start count : Nat)
    (h : start + count ≤ message.length) :
    ∃ l, readBytes message start count = .ok l := by
  induction count generalizing start with
  | zero => exact ⟨[], rfl⟩
  | succ n ih =>
    have hlt : start < message.length := by omega
    obtain ⟨l, hl⟩ := ih (start + 1) (by omega)
    exact ⟨message[start] :: l, by simp [readBytes, List.getElem?_eq_getElem hlt, hl]⟩

theorem frameCorrupted_ok (message : List Nat) (index : Nat)
    (h : index + 14 < message.length) :
    ∃ b, frameCorrupted message index = .ok b := by
  have h0 : index < message.length := by omega
  have h5 : index + 5 < message.length := by omega
  simp only [frameCorrupted, List.getElem?_eq_getElem h0, List.getElem?_eq_getElem h5,
    List.getElem?_eq_getElem h]
  split_ifs <;> exact ⟨_, rfl⟩

/-! ## Lemmas on the scan loop -/

theorem scanStep_sentinel (message : List Nat) (index : Nat) (s : State)
    (h : message[index]? = some 33) : scanStep message index s = .exit := by
  simp [scanStep, h]

theorem scanStep_frame (front tail : List Nat) (f : BinaryFrame) (s : State)
    (hid : f.id.length = 4) (hpayload : f.payload.length = 8)
    (hroom : front.length + 15 < 64) :
    scanStep (front ++ (f.bytes ++ tail)) front.length s
      = .next (front.length + 15) (pushSendQueue0 s f.toCanMessage) := by
  obtain ⟨id, payload⟩ := f
  match id, hid with
  | [a1, a2, a3, a4], _ =>
    match payload, hpayload with
    | [p0, p1, p2, p3, p4, p5, p6, p7], _ =>
      have h0 := getElem?_append_offset front
        (BinaryFrame.bytes ⟨[a1, a2, a3, a4], [p0, p1, p2, p3, p4, p5, p6, p7]⟩ ++ tail) 0
      have h5 := getElem?_append_offset front
        (BinaryFrame.bytes ⟨[a1, a2, a3, a4], [p0, p1, p2, p3, p4, p5, p6, p7]⟩ ++ tail) 5
      have h14 := getElem?_append_offset front
        (BinaryFrame.bytes ⟨[a1, a2, a3, a4], [p0, p1, p2, p3, p4, p5, p6, p7]⟩ ++ tail) 14
      have hidBytes := readBytes_append_offset front
        (BinaryFrame.bytes ⟨[a1, a2, a3, a4], [p0, p1, p2, p3, p4, p5, p6, p7]⟩ ++ tail)
        [a1, a2, a3, a4] 1 4 rfl
      have hdataBytes := readBytes_append_offset front
        (BinaryFrame.bytes ⟨[a1, a2, a3, a4], [p0, p1, p2, p3, p4, p5, p6, p7]⟩ ++ tail)
        [p0, p1, p2, p3, p4, p5, p6, p7] 6 8 rfl
      simp only [Nat.add_zero] at h0
      simp only [scanStep, frameCorrupted, h0, h5, h14, hidBytes, hdataBytes,
        BINARY_CAN_WRITE_PACKET_LENGTH, BinaryFrame.toCanMessage]
      simp [BinaryFrame.bytes, hroom]

theorem scanLoop_sentinel (message : List Nat) (fuel index : Nat) (s : State)
    (h : message[index]? = some 33) :
    scanLoop message (fuel + 1) index s = .finished s := by
  simp [scanLoop, scanStep_sentinel message index s h]

theorem BinaryFrame.length_bytes (f : BinaryFrame) (hid : f.id.length = 4)
    (hpayload : f.payload.length = 8) : f.bytes.length = 15 := by
  simp [BinaryFrame.bytes, hid, hpayload]

theorem scanLoop_frames (frames : List BinaryFrame) (front rest : List Nat) (s : State)
    (fuel : Nat) (hwf : ∀ f ∈ frames, f.id.length = 4 ∧ f.payload.length = 8)
    (hroom : front.length + 15 * frames.length ≤ 60) (hfuel : frames.length < fuel) :
    scanLoop (front ++ (packFrames frames ++ 33 :: rest)) fuel front.length s
      = .finished (frames.foldl (fun st f => pushSendQueue0 st f.toCanMessage) s) := by
  induction frames generalizing front s fuel with
  | nil =>
    obtain ⟨fuel, rfl⟩ : ∃ n, fuel = n + 1 := ⟨fuel - 1, by simp at hfuel; omega⟩
    have h0 := getElem?_append_offset front (packFrames [] ++ 33 :: rest) 0
    simp only [Nat.add_zero] at h0
    rw [scanLoop_sentinel _ _ _ _ (by rw [h0]; simp [packFrames])]
    rfl
  | cons f fs ih =>
    obtain ⟨fuel, rfl⟩ : ∃ n, fuel = n + 1 := ⟨fuel - 1, by simp at hfuel; omega⟩
    obtain ⟨hid, hpayload⟩ := hwf f (List.mem_cons_self _ _)
    have hlen := f.length_bytes hid hpayload
    simp only [List.length_cons] at hroom hfuel
    have hstep := scanStep_frame front (packFrames fs ++ 33 :: rest) f s hid hpayload
      (by omega)
    have hmsg : front ++ (packFrames (f :: fs) ++ 33 :: rest)
        = (front ++ f.bytes) ++ (packFrames fs ++ 33 :: rest) := by
      simp [packFrames, List.append_assoc]
    have hmsg' : front ++ (f.bytes ++ (packFrames fs ++ 33 :: rest))
        = (front ++ f.bytes) ++ (packFrames fs ++ 33 :: rest) := by
      simp [List.append_assoc]
    have hidx : front.length + 15 = (front ++ f.bytes).length := by
      simp [hlen]
    rw [hmsg' ] at hstep
    rw [hmsg]
    simp only [scanLoop, hstep, List.foldl_cons]
    rw [hidx]
    exact ih (front ++ f.bytes) _ fuel
      (fun g hg => hwf g (List.mem_cons_of_mem _ hg))
      (by rw [← hidx]; omega) (by omega)

theorem pushSendQueue0_free (m : CanMessage) (bus0 : CanBus) (others : List CanBus)
    (calls : List Call) (hfree : bus0.sendQueue.items.length < bus0.sendQueue.capacity) :
    pushSendQueue0 ⟨bus0 :: others, calls⟩ m
      = ⟨⟨bus0.receiveQueue, ⟨bus0.sendQueue.capacity, bus0.sendQueue.items ++ [m]⟩⟩ :: others,
          calls⟩ := by
  simp [pushSendQueue0, List.modifyHead, pushSend, QUEUE_PUSH, hfree]

theorem foldl_pushSendQueue0 (messages : List CanMessage) (bus0 : CanBus)
    (others : List CanBus) (calls : List Call)
    (hfree : bus0.sendQueue.items.length + messages.length ≤ bus0.sendQueue.capacity) :
    messages.foldl pushSendQueue0 ⟨bus0 :: others, calls⟩
      = ⟨⟨bus0.receiveQueue, ⟨bus0.sendQueue.capacity, bus0.sendQueue.items ++ messages⟩⟩
          :: others, calls⟩ := by
  induction messages generalizing bus0 with
  | nil => simp
  | cons m ms ih =>
    simp only [List.length_cons] at hfree
    rw [List.foldl_cons, pushSendQueue0_free m bus0 others calls (by omega), ih]
    · simp
    · simp; omega

theorem scanStep_safe (message : List Nat) (h64 : message.length = 64) (index : Nat)
    (hmod : index % 15 = 0) (hle : index ≤ 60) (s : State) :
    scanStep message index s = .exit ∨
      (index ≤ 45 ∧ (scanStep message index s = .next index s ∨
        ∃ m, scanStep message index s = .next (index + 15) (pushSendQueue0 s m))) := by
  have h0 : index < message.length := by omega
  by_cases hc : message[index] ≠ 33 ∧ index + 15 < 64
  · right
    have h45 : index ≤ 45 := by omega
    refine ⟨h45, ?_⟩
    obtain ⟨b, hb⟩ := frameCorrupted_ok message index (by omega)
    cases b with
    | true =>
      left
      obtain ⟨l, hl⟩ := readBytes_ok message index 16 (by omega)
      simp [scanStep, List.getElem?_eq_getElem h0, hc, BINARY_CAN_WRITE_PACKET_LENGTH, hb, hl]
    | false =>
      right
      obtain ⟨l1, hl1⟩ := readBytes_ok message (index + 1) 4 (by omega)
      obtain ⟨l2, hl2⟩ := readBytes_ok message (index + 6) 8 (by omega)
      exact ⟨⟨ofBytesLE l1, ofBytesLE l2⟩, by
        simp [scanStep, List.getElem?_eq_getElem h0, hc, BINARY_CAN_WRITE_PACKET_LENGTH, hb,
          hl1, hl2]⟩
  · left
    simp only [scanStep, List.getElem?_eq_getElem h0, BINARY_CAN_WRITE_PACKET_LENGTH]
    rw [if_neg hc]

theorem scanLoop_no_fault (message : List Nat) (h64 : message.length = 64) (fuel index : Nat)
    (hmod : index % 15 = 0) (hle : index ≤ 60) (s : State) (i : Nat) :
    scanLoop message fuel index s ≠ .outOfBounds i := by
  induction fuel generalizing index s with
  | zero => simp [scanLoop]
  | succ fuel ih =>
    rcases scanStep_safe message h64 index hmod hle s with h | ⟨h45, h | ⟨m, h⟩⟩
    · simp [scanLoop, h]
    · simp only [scanLoop, h]
      exact ih index hmod hle s
    · simp only [scanLoop, h]
      exact ih (index + 15) (by omega) (by omega) _

theorem scanAfter_index (message : List Nat) (h64 : message.length = 64) (s : State)
    (n index : Nat) (s' : State) (h : scanAfter message s n = some (index, s')) :
    index % 15 = 0 ∧ index ≤ 60 := by
  induction n generalizing index s' with
  | zero =>
    simp only [scanAfter, Option.some.injEq, Prod.mk.injEq] at h
    omega
  | succ n ih =>
    simp only [scanAfter] at h
    cases hprev : scanAfter message s n with
    | none => simp [hprev] at h
    | some p =>
      obtain ⟨j, t⟩ := p
      obtain ⟨hmod, hle⟩ := ih j t hprev
      simp only [hprev] at h
      rcases scanStep_safe message h64 j hmod hle t with hs | ⟨h45, hs | ⟨m, hs⟩⟩
      · simp [hs] at h
      · simp only [hs, Option.some.injEq, Prod.mk.injEq] at h
        omega
      · simp only [hs, Option.some.injEq, Prod.mk.injEq] at h
        omega

/-! ## Claims on the binary write-request scanner -/

/-- C1 (as amended): when the buffer holds one well-formed frame at offset 0 and
the sentinel `!` at byte 15, `receiveBinaryWriteRequest` finishes for every
fuel of at least 2, having performed exactly one `QUEUE_PUSH`, on the send
queue of bus 0; the pushed message's id and data hold, in memory order, the id
bytes and the payload bytes of the frame. -/
theorem receiveBinaryWriteRequest_single_frame (f : BinaryFrame) (rest : List Nat)
    (bus0 : CanBus) (others : List CanBus) (calls : List Call) (fuel : Nat)
    (hwf : f.WellFormed) (hfuel : 2 ≤ fuel) :
    receiveBinaryWriteRequest fuel (f.bytes ++ 33 :: rest) ⟨bus0 :: others, calls⟩
        = .finished ⟨{ bus0 with sendQueue := QUEUE_PUSH bus0.sendQueue f.toCanMessage }
            :: others, calls⟩
      ∧ bytesLE 4 f.toCanMessage.id = f.id
      ∧ bytesLE 8 f.toCanMessage.data = f.payload := by
  obtain ⟨hid, hpayload, hidb, hpayloadb⟩ := hwf
  refine ⟨?_, ?_, ?_⟩
  · have h := scanLoop_frames [f] [] rest ⟨bus0 :: others, calls⟩ fuel
      (by simpa using ⟨hid, hpayload⟩) (by simp) (by simpa using hfuel)
    simp only [packFrames, List.nil_append, List.append_nil, List.length_nil, List.foldl_cons,
      List.foldl_nil] at h
    simp only [receiveBinaryWriteRequest]
    rw [h]
    rfl
  · have h := bytesLE_ofBytesLE f.id hidb
    rw [hid] at h
    exact h
  · have h := bytesLE_ofBytesLE f.payload hpayloadb
    rw [hpayload] at h
    exact h

/-- C1 (as stated, refuted): on a 15-byte buffer that holds one well-formed
frame the scan never finishes normally: after the frame is pushed the loop
condition reads byte 15, which is past the end of the buffer. -/
theorem receiveBinaryWriteRequest_single_frame_buffer_overrun :
    (∀ fuel s s', receiveBinaryWriteRequest fuel singleFrameBuffer s ≠ .finished s')
      ∧ receiveBinaryWriteRequest 2 singleFrameBuffer ⟨[⟨⟨8, []⟩, ⟨8, []⟩⟩], []⟩
          = .outOfBounds 15 := by
  refine ⟨?_, by decide⟩
  intro fuel s s'
  match fuel with
  | 0 => simp [receiveBinaryWriteRequest, scanLoop]
  | 1 =>
    have h1 : scanStep singleFrameBuffer 0 s
        = .next 15 (pushSendQueue0 s ⟨ofBytesLE [1, 2, 3, 4], ofBytesLE [1, 2, 3, 4, 5, 6, 7, 8]⟩) :=
      rfl
    simp [receiveBinaryWriteRequest, scanLoop, h1]
  | fuel + 2 =>
    have h1 : scanStep singleFrameBuffer 0 s
        = .next 15 (pushSendQueue0 s ⟨ofBytesLE [1, 2, 3, 4], ofBytesLE [1, 2, 3, 4, 5, 6, 7, 8]⟩) :=
      rfl
    have h2 : ∀ t, scanStep singleFrameBuffer 15 t = .fault 15 := fun _ => rfl
    simp [receiveBinaryWriteRequest, scanLoop, h1, h2]

/-- C2 (the code at the failing input): on the 64-byte buffer whose byte 0 is
`{` and whose byte 5 is not `|`, one loop iteration leaves the scan index and
the state unchanged, so the scan is still running after any number of
iterations. -/
theorem receiveBinaryWriteRequest_corrupted_never_terminates (s : State) :
    corruptedBuffer.length = 64
      ∧ scanStep corruptedBuffer 0 s = .next 0 s
      ∧ ∀ fuel, receiveBinaryWriteRequest fuel corruptedBuffer s = .outOfFuel := by
  have hstep : scanStep corruptedBuffer 0 s = .next 0 s := rfl
  refine ⟨rfl, hstep, ?_⟩
  intro fuel
  simp only [receiveBinaryWriteRequest]
  induction fuel with
  | zero => rfl
  | succ fuel ih => simp only [scanLoop, hstep, ih]

/-- C1 witness: the frame with id bytes 1..4 and payload bytes 1..8 followed
by the sentinel, in a 16-byte buffer. -/
theorem receiveBinaryWriteRequest_single_frame_witness :
    countingFrame.WellFormed ∧ 2 ≤ 2 ∧
      (receiveBinaryWriteRequest 2 (countingFrame.bytes ++ 33 :: []) ⟨idleBus :: [], []⟩
          = .finished ⟨{ idleBus with
              sendQueue := QUEUE_PUSH idleBus.sendQueue countingFrame.toCanMessage } :: [], []⟩
        ∧ bytesLE 4 countingFrame.toCanMessage.id = countingFrame.id
        ∧ bytesLE 8 countingFrame.toCanMessage.data = countingFrame.payload) :=
  ⟨by decide, by decide,
    receiveBinaryWriteRequest_single_frame countingFrame [] idleBus [] [] 2 (by decide)
      (by decide)⟩

/-- C3: for k ≤ 4 well-formed frames packed back-to-back from offset 0 and
followed by the sentinel `!` at offset 15k, whatever the id and payload bytes,
whatever the bytes after the sentinel and whatever the state of the queues,
`receiveBinaryWriteRequest` finishes for every fuel above k, and what it has
done is one `QUEUE_PUSH` on the send queue of bus 0 for each frame, in frame
order: the result does not depend on the bytes after the sentinel. When that
send queue has k free slots, exactly the k messages of the frames are appended
to it, in frame order, and nothing else changes. Each message's id and data
hold, in memory order, the id and payload bytes of its frame. -/
theorem receiveBinaryWriteRequest_packed_frames (frames : List BinaryFrame) (rest : List Nat)
    (s : State) (fuel : Nat) (hk : frames.length ≤ 4) (hwf : ∀ f ∈ frames, f.WellFormed)
    (hfuel : frames.length < fuel) :
    receiveBinaryWriteRequest fuel (packFrames frames ++ 33 :: rest) s
        = .finished ((frames.map BinaryFrame.toCanMessage).foldl pushSendQueue0 s)
      ∧ (∀ bus0 others calls, s = ⟨bus0 :: others, calls⟩ →
          bus0.sendQueue.items.length + frames.length ≤ bus0.sendQueue.capacity →
          receiveBinaryWriteRequest fuel (packFrames frames ++ 33 :: rest) s
            = .finished ⟨⟨bus0.receiveQueue, ⟨bus0.sendQueue.capacity,
                bus0.sendQueue.items ++ frames.map BinaryFrame.toCanMessage⟩⟩ :: others,
                calls⟩)
      ∧ ∀ f ∈ frames, bytesLE 4 f.toCanMessage.id = f.id
          ∧ bytesLE 8 f.toCanMessage.data = f.payload := by
  have hfold : ∀ (l : List BinaryFrame) (st : State),
      l.foldl (fun st f => pushSendQueue0 st f.toCanMessage) st
        = (l.map BinaryFrame.toCanMessage).foldl pushSendQueue0 st := by
    intro l
    induction l with
    | nil => intro st; rfl
    | cons g gs ih => intro st; simp [ih]
  have hrun : receiveBinaryWriteRequest fuel (packFrames frames ++ 33 :: rest) s
      = .finished ((frames.map BinaryFrame.toCanMessage).foldl pushSendQueue0 s) := by
    have h := scanLoop_frames frames [] rest s fuel
      (fun f hf => ⟨(hwf f hf).1, (hwf f hf).2.1⟩) (by simp; omega) hfuel
    simp only [List.nil_append, List.length_nil] at h
    simp only [receiveBinaryWriteRequest]
    rw [h, hfold]
  refine ⟨hrun, ?_, ?_⟩
  · intro bus0 others calls hs hfree
    rw [hrun, hs, foldl_pushSendQueue0 _ bus0 others calls (by simpa using hfree)]
  · intro f hf
    obtain ⟨hid, hpayload, hidb, hpayloadb⟩ := hwf f hf
    constructor
    · have h := bytesLE_ofBytesLE f.id hidb
      rw [hid] at h
      exact h
    · have h := bytesLE_ofBytesLE f.payload hpayloadb
      rw [hpayload] at h
      exact h

/-- C3 witness: two frames, one made of delimiter and sentinel bytes, in a
64-byte buffer whose bytes after the sentinel are all `{`; both messages are
appended to the empty send queue of bus 0, and on a full send queue the scan
finishes all the same. -/
theorem receiveBinaryWriteRequest_packed_frames_witness :
    [countingFrame, delimiterFrame].length ≤ 4
      ∧ (∀ f ∈ [countingFrame, delimiterFrame], f.WellFormed)
      ∧ [countingFrame, delimiterFrame].length < 3
      ∧ twoFrameBuffer.length = 64
      ∧ receiveBinaryWriteRequest 3 twoFrameBuffer ⟨[idleBus, idleBus], []⟩
          = .finished ⟨[⟨⟨8, []⟩, ⟨8, [countingFrame.toCanMessage,
              delimiterFrame.toCanMessage]⟩⟩, idleBus], []⟩
      ∧ receiveBinaryWriteRequest 3 twoFrameBuffer ⟨[fullBus, idleBus], []⟩
          = .finished ⟨[fullBus, idleBus], []⟩
      ∧ (receiveBinaryWriteRequest 3
            (packFrames [countingFrame, delimiterFrame] ++ 33 :: List.replicate 33 123)
            ⟨[idleBus, idleBus], []⟩
          = .finished (([countingFrame, delimiterFrame].map BinaryFrame.toCanMessage).foldl
              pushSendQueue0 ⟨[idleBus, idleBus], []⟩)
        ∧ (∀ bus0 others calls, (⟨[idleBus, idleBus], []⟩ : State) = ⟨bus0 :: others, calls⟩ →
            bus0.sendQueue.items.length + [countingFrame, delimiterFrame].length
              ≤ bus0.sendQueue.capacity →
            receiveBinaryWriteRequest 3
                (packFrames [countingFrame, delimiterFrame] ++ 33 :: List.replicate 33 123)
                ⟨[idleBus, idleBus], []⟩
              = .finished ⟨⟨bus0.receiveQueue, ⟨bus0.sendQueue.capacity,
                  bus0.sendQueue.items
                    ++ [countingFrame, delimiterFrame].map BinaryFrame.toCanMessage⟩⟩
                  :: others, calls⟩)
        ∧ ∀ f ∈ [countingFrame, delimiterFrame], bytesLE 4 f.toCanMessage.id = f.id
            ∧ bytesLE 8 f.toCanMessage.data = f.payload) :=
  ⟨by decide, by decide, by decide, by decide, by decide, by decide,
    receiveBinaryWriteRequest_packed_frames [countingFrame, delimiterFrame]
      (List.replicate 33 123) ⟨[idleBus, idleBus], []⟩ 3 (by decide) (by decide)
      (by decide)⟩

/-- C10: on a 64-byte buffer no read of `receiveBinaryWriteRequest` is out of
bounds, for any fuel and state; whenever the loop condition is evaluated the
scan index is a multiple of 15 and at most 60, the iteration that follows
reads no byte past the buffer, and when the loop body is entered the index is
at most 45, so that the highest byte the body can read, `index + 15`, is
inside the buffer. -/
theorem receiveBinaryWriteRequest_reads_in_bounds (message : List Nat)
    (h64 : message.length = 64) (fuel : Nat) (s : State) :
    (∀ i, receiveBinaryWriteRequest fuel message s ≠ .outOfBounds i)
      ∧ ∀ n index s', scanAfter message s n = some (index, s') →
          index % 15 = 0 ∧ index ≤ 60 ∧ index < message.length
            ∧ (∀ i, scanStep message index s' ≠ .fault i)
            ∧ (scanStep message index s' ≠ .exit →
                index ≤ 45 ∧ index + 15 < message.length) := by
  constructor
  · intro i
    exact scanLoop_no_fault message h64 fuel 0 (by decide) (by decide) s i
  · intro n index s' h
    obtain ⟨hmod, hle⟩ := scanAfter_index message h64 s n index s' h
    refine ⟨hmod, hle, by omega, ?_, ?_⟩
    · intro i
      rcases scanStep_safe message h64 index hmod hle s' with hs | ⟨_, hs | ⟨m, hs⟩⟩ <;>
        simp [hs]
    · intro hne
      rcases scanStep_safe message h64 index hmod hle s' with hs | ⟨h45, _⟩
      · exact absurd hs hne
      · exact ⟨h45, by omega⟩

/-- C10 witness: the 64-byte buffer with two frames and the sentinel. -/
theorem receiveBinaryWriteRequest_reads_in_bounds_witness :
    twoFrameBuffer.length = 64 ∧
      ((∀ i, receiveBinaryWriteRequest 5 twoFrameBuffer ⟨[idleBus], []⟩ ≠ .outOfBounds i)
        ∧ ∀ n index s', scanAfter twoFrameBuffer ⟨[idleBus], []⟩ n = some (index, s') →
            index % 15 = 0 ∧ index ≤ 60 ∧ index < twoFrameBuffer.length
              ∧ (∀ i, scanStep twoFrameBuffer index s' ≠ .fault i)
              ∧ (scanStep twoFrameBuffer index s' ≠ .exit →
                  index ≤ 45 ∧ index + 15 < twoFrameBuffer.length)) :=
  ⟨by decide, receiveBinaryWriteRequest_reads_in_bounds twoFrameBuffer (by decide) 5
    ⟨[idleBus], []⟩⟩

/-! ## Lemmas on `strtoull` -/

theorem hexDigitValue_some (c : Char) (d : Nat) (h : hexDigitValue c = some d) :
    digitValue c.toNat = some d ∧ d < 16 ∧ isspace c.toNat = false ∧ c.toNat ≠ 45
      ∧ c.toNat ≠ 43 ∧ c.toNat ≠ 120 ∧ c.toNat ≠ 88 := by
  unfold hexDigitValue at h
  unfold digitValue isspace
  split_ifs at h with h1 h2 h3 <;> simp only [Option.some.injEq] at h
  · subst h
    refine ⟨by simp [h1], by omega, by simp; omega, by omega, by omega, by omega, by omega⟩
  · subst h
    have hn : ¬ (48 ≤ c.toNat ∧ c.toNat ≤ 57) := h1
    have hm : 97 ≤ c.toNat ∧ c.toNat ≤ 122 := ⟨h2.1, by omega⟩
    refine ⟨?_, by omega, by simp; omega, by omega, by omega, by omega, by omega⟩
    rw [if_neg hn, if_pos hm]
    congr 1
    omega
  · subst h
    have hn : ¬ (48 ≤ c.toNat ∧ c.toNat ≤ 57) := h1
    have hm : ¬ (97 ≤ c.toNat ∧ c.toNat ≤ 122) := by omega
    have hu : 65 ≤ c.toNat ∧ c.toNat ≤ 90 := ⟨h3.1, by omega⟩
    refine ⟨?_, by omega, by simp; omega, by omega, by omega, by omega, by omega⟩
    rw [if_neg hn, if_neg hm, if_pos hu]
    congr 1
    omega

theorem strtoullDigits_hex (cs : List Char) (ds : List Nat) (acc : Nat)
    (h : cs.map hexDigitValue = ds.map some) :
    strtoullDigits 16 acc (cs.map Char.toNat) = ds.foldl (fun a d => 16 * a + d) acc := by
  induction cs generalizing ds acc with
  | nil =>
    cases ds with
    | nil => rfl
    | cons d ds => simp at h
  | cons c cs ih =>
    cases ds with
    | nil => simp at h
    | cons d ds =>
      simp only [List.map_cons, List.cons.injEq] at h
      obtain ⟨hd, hlt, -⟩ := hexDigitValue_some c d h.1
      simp only [List.map_cons, strtoullDigits, hd, hlt, if_true, List.foldl_cons]
      rw [Nat.mul_comm acc 16]
      exact ih ds _ h.2

theorem hexNumber_lt (ds : List Nat) (acc : Nat) (h : ∀ d ∈ ds, d < 16) :
    ds.foldl (fun a d => 16 * a + d) acc < (acc + 1) * 16 ^ ds.length := by
  induction ds generalizing acc with
  | nil => simp
  | cons d ds ih =>
    have hd : d < 16 := h d (List.mem_cons_self _ _)
    have h1 := ih (16 * acc + d) (fun x hx => h x (List.mem_cons_of_mem _ hx))
    simp only [List.foldl_cons, List.length_cons]
    have h2 : (16 * acc + d + 1) * 16 ^ ds.length ≤ (acc + 1) * 16 ^ (ds.length + 1) := by
      rw [pow_succ, ← Nat.mul_assoc, Nat.mul_comm ((acc + 1) * 16 ^ ds.length) 16,
        ← Nat.mul_assoc]
      apply Nat.mul_le_mul_right
      omega
    omega

theorem takeSign_unsigned (c : Nat) (cs : List Nat) (hm : c ≠ 45) (hp : c ≠ 43) :
    takeSign (c :: cs) = (false, c :: cs) := by
  unfold takeSign
  split
  · rename_i heq
    simp only [List.cons.injEq] at heq
    exact absurd heq.1 hm
  · rename_i heq
    simp only [List.cons.injEq] at heq
    exact absurd heq.1 hp
  · rfl

theorem dropHexPrefix_none (c0 c1 : Nat) (cs : List Nat) (hx : c1 ≠ 120) (hX : c1 ≠ 88) :
    dropHexPrefix 16 (c0 :: c1 :: cs) = c0 :: c1 :: cs := by
  unfold dropHexPrefix
  split
  · rename_i heq
    simp only [List.cons.injEq] at heq
    exact absurd heq.2.1 hx
  · rename_i heq
    simp only [List.cons.injEq] at heq
    exact absurd heq.2.1 hX
  · rfl

theorem strtoull_hex (s : String) (ds : List Nat) (hlen : ds.length = 16)
    (h : s.data.map hexDigitValue = ds.map some) :
    strtoull s 16 = hexNumber ds ∧ hexNumber ds < 2 ^ 64 := by
  have hall : ∀ d ∈ ds, d < 16 := by
    intro d hd
    have hmem : some d ∈ s.data.map hexDigitValue := by
      rw [h]; exact List.mem_map_of_mem _ hd
    obtain ⟨c, -, hc⟩ := List.mem_map.mp hmem
    exact (hexDigitValue_some c d hc).2.1
  have hdigits := strtoullDigits_hex s.data ds 0 h
  have hbound := hexNumber_lt ds 0 hall
  rw [hlen] at hbound
  have hbound' : hexNumber ds < 2 ^ 64 := by
    unfold hexNumber
    omega
  refine ⟨?_, hbound'⟩
  have hlen2 : s.data.length = 16 := by
    have := congrArg List.length h
    simpa [hlen] using this
  obtain ⟨cs, hs⟩ : ∃ cs, s.data = cs := ⟨_, rfl⟩
  rw [hs] at h hdigits hlen2
  match cs, hlen2, ds, hlen with
  | c0 :: c1 :: cs, _, d0 :: d1 :: ds', _ =>
    simp only [List.map_cons, List.cons.injEq] at h
    obtain ⟨-, -, hsp0, hm0, hp0, -, -⟩ := hexDigitValue_some c0 d0 h.1
    obtain ⟨-, -, -, -, -, hx1, hX1⟩ := hexDigitValue_some c1 d1 h.2.1
    simp only [List.map_cons] at hdigits
    have hdrop : (c0.toNat :: c1.toNat :: cs.map Char.toNat).dropWhile isspace
        = c0.toNat :: c1.toNat :: cs.map Char.toNat := by
      simp [List.dropWhile_cons, hsp0]
    unfold strtoull
    simp only [hs, List.map_cons, hdrop, takeSign_unsigned _ _ hm0 hp0,
      dropHexPrefix_none _ _ _ hx1 hX1, hdigits]
    unfold strtoullResult
    unfold hexNumber at hbound' ⊢
    rw [if_neg (by omega)]
    simp

theorem ofBytesLE_lt (l : List Nat) (h : ∀ b ∈ l, b < 256) :
    ofBytesLE l < 256 ^ l.length := by
  induction l with
  | nil => simp [ofBytesLE]
  | cons b rest ih =>
    have hb : b < 256 := h b (List.mem_cons_self _ _)
    have hrest := ih (fun x hx => h x (List.mem_cons_of_mem _ hx))
    simp only [ofBytesLE, List.length_cons, pow_succ]
    omega

theorem bswap64_ofBytesLE (l : List Nat) (hlen : l.length = 8) (h : ∀ b ∈ l, b < 256) :
    bswap64 (ofBytesLE l.reverse) = ofBytesLE l := by
  have hrev : ∀ b ∈ l.reverse, b < 256 := fun b hb => h b (List.mem_reverse.mp hb)
  have hlt := ofBytesLE_lt l.reverse hrev
  rw [List.length_reverse, hlen] at hlt
  have hround := bytesLE_ofBytesLE l.reverse hrev
  rw [List.length_reverse, hlen] at hround
  unfold bswap64
  rw [Nat.mod_eq_of_lt (by omega), hround, List.reverse_reverse]

theorem hexNumber_eq_ofBytesLE (digits : List Nat) (hlen : digits.length = 16) :
    hexNumber digits = ofBytesLE (hexPairs digits).reverse := by
  match digits, hlen with
  | [d0, d1, d2, d3, d4, d5, d6, d7, d8, d9, d10, d11, d12, d13, d14, d15], _ =>
    simp only [hexNumber, List.foldl_cons, List.foldl_nil, hexPairs, List.reverse_cons,
      List.reverse_nil, List.nil_append, List.cons_append, ofBytesLE]
    omega

theorem hexPairs_bytes (digits : List Nat) (hlen : digits.length = 16)
    (h : ∀ d ∈ digits, d < 16) :
    (hexPairs digits).length = 8 ∧ ∀ b ∈ hexPairs digits, b < 256 := by
  match digits, hlen with
  | [d0, d1, d2, d3, d4, d5, d6, d7, d8, d9, d10, d11, d12, d13, d14, d15], _ =>
    simp only [List.mem_cons, List.mem_singleton, forall_eq_or_imp, forall_eq] at h
    simp only [hexPairs, List.length_cons, List.length_nil, List.mem_cons, List.mem_singleton,
      forall_eq_or_imp, forall_eq, List.not_mem_nil, false_implies, implies_true, and_true,
      true_and]
    omega

/-! ## Claims on JSON write requests -/

/-- C4: for a parsed object with no `name` field, an `id` field and a `data`
field whose string is exactly 16 hexadecimal digits, `receiveJsonWriteRequest`
returns, reports a message and performs exactly one `QUEUE_PUSH`, on the send
queue of bus 0, of the message whose id is the `id` value reduced to 32 bits
unsigned and whose data is the byte swap of the number the digits denote; the
payload bytes of that data, in little-endian memory order, are the bytes
written by the digit pairs (2i, 2i+1). -/
theorem receiveJsonWriteRequest_raw_write (cJSON_Parse : List Nat → Option (List cJSON))
    (catalog : Catalog) (message : List Nat) (root : List cJSON) (idObject dataObject : cJSON)
    (text : String) (digits : List Nat) (bus0 : CanBus) (others : List CanBus)
    (calls : List Call)
    (hparse : cJSON_Parse message = some root)
    (hname : cJSON_GetObjectItem root "name" = none)
    (hid : cJSON_GetObjectItem root "id" = some idObject)
    (hdata : cJSON_GetObjectItem root "data" = some dataObject)
    (hstring : dataObject.valuestring = some text)
    (hlen : digits.length = 16)
    (hdigits : text.data.map hexDigitValue = digits.map some) :
    receiveJsonWriteRequest cJSON_Parse catalog message ⟨bus0 :: others, calls⟩
        = .returned (true, ⟨⟨bus0.receiveQueue, QUEUE_PUSH bus0.sendQueue
            ⟨(idObject.valueint % 2 ^ 32).toNat, bswap64 (hexNumber digits)⟩⟩ :: others,
            calls⟩)
      ∧ bytesLE 8 (bswap64 (hexNumber digits)) = hexPairs digits
      ∧ (idObject.valueint % 2 ^ 32).toNat < 2 ^ 32
      ∧ (0 ≤ idObject.valueint → idObject.valueint < 2 ^ 32 →
          ((idObject.valueint % 2 ^ 32).toNat : Int) = idObject.valueint) := by
  have hall : ∀ d ∈ digits, d < 16 := by
    intro d hd
    have hmem : some d ∈ text.data.map hexDigitValue := by
      rw [hdigits]; exact List.mem_map_of_mem _ hd
    obtain ⟨c, -, hc⟩ := List.mem_map.mp hmem
    exact (hexDigitValue_some c d hc).2.1
  obtain ⟨hvalue, -⟩ := strtoull_hex text digits hlen hdigits
  obtain ⟨hplen, hpb⟩ := hexPairs_bytes digits hlen hall
  refine ⟨?_, ?_, ?_, ?_⟩
  · simp only [receiveJsonWriteRequest, hparse, hname, hid, receiveRawWriteRequest, hdata,
      hstring, hvalue]
    rfl
  · rw [hexNumber_eq_ofBytesLE digits hlen, bswap64_ofBytesLE _ hplen hpb]
    have h := bytesLE_ofBytesLE (hexPairs digits) hpb
    rw [hplen] at h
    exact h
  · omega
  · intro h0 h1
    omega

/-- C4 witness: the object of `{"id":291,"data":"0102030405060708"}`; the
pushed message has id 291 and data word 0x0807060504030201. -/
theorem receiveJsonWriteRequest_raw_write_witness :
    (fun _ => some rawWriteObject : List Nat → Option (List cJSON)) [] = some rawWriteObject
      ∧ cJSON_GetObjectItem rawWriteObject "name" = none
      ∧ cJSON_GetObjectItem rawWriteObject "id" = some ⟨"id", none, 291⟩
      ∧ cJSON_GetObjectItem rawWriteObject "data"
          = some ⟨"data", some "0102030405060708", 0⟩
      ∧ bswap64 (hexNumber [0, 1, 0, 2, 0, 3, 0, 4, 0, 5, 0, 6, 0, 7, 0, 8])
          = 0x0807060504030201
      ∧ hexPairs [0, 1, 0, 2, 0, 3, 0, 4, 0, 5, 0, 6, 0, 7, 0, 8] = [1, 2, 3, 4, 5, 6, 7, 8]
      ∧ (receiveJsonWriteRequest (fun _ => some rawWriteObject) sampleCatalog []
            ⟨idleBus :: [], []⟩
          = .returned (true, ⟨⟨idleBus.receiveQueue, QUEUE_PUSH idleBus.sendQueue
              ⟨((291 : Int) % 2 ^ 32).toNat,
                bswap64 (hexNumber [0, 1, 0, 2, 0, 3, 0, 4, 0, 5, 0, 6, 0, 7, 0, 8])⟩⟩ :: [],
              []⟩)
        ∧ bytesLE 8 (bswap64 (hexNumber [0, 1, 0, 2, 0, 3, 0, 4, 0, 5, 0, 6, 0, 7, 0, 8]))
            = hexPairs [0, 1, 0, 2, 0, 3, 0, 4, 0, 5, 0, 6, 0, 7, 0, 8]
        ∧ ((291 : Int) % 2 ^ 32).toNat < 2 ^ 32
        ∧ ((0 : Int) ≤ 291 → (291 : Int) < 2 ^ 32 →
            (((291 : Int) % 2 ^ 32).toNat : Int) = 291)) :=
  ⟨rfl, by decide, by decide, by decide, by decide, by decide,
    receiveJsonWriteRequest_raw_write (fun _ => some rawWriteObject) sampleCatalog []
      rawWriteObject ⟨"id", none, 291⟩ ⟨"data", some "0102030405060708", 0⟩
      "0102030405060708" [0, 1, 0, 2, 0, 3, 0, 4, 0, 5, 0, 6, 0, 7, 0, 8] idleBus [] [] rfl
      (by decide) (by decide) (by decide) rfl (by decide) (by decide)⟩

/-- C5: for a parsed object with a `name` and a `value` field, whatever its
other fields, `receiveJsonWriteRequest` returns, leaves the buses untouched
and: if the writable-only signal lookup returns a signal, the only call made is
one `sendCanSignal` with that signal and the value, whatever the command lookup
returns; otherwise, if the command lookup returns a command, the only call
made is one call of its handler with the name, the value and the signal
catalog; otherwise no call is made and the state is unchanged. -/
theorem receiveJsonWriteRequest_translated_dispatch
    (cJSON_Parse : List Nat → Option (List cJSON)) (catalog : Catalog) (message : List Nat)
    (root : List cJSON) (nameObject value : cJSON) (s : State)
    (hparse : cJSON_Parse message = some root)
    (hname : cJSON_GetObjectItem root "name" = some nameObject)
    (hvalue : cJSON_GetObjectItem root "value" = some value) :
    (∀ signal, lookupSignal nameObject.valuestring catalog.signals true = some signal →
        receiveJsonWriteRequest cJSON_Parse catalog message s
          = .returned
              (true, ⟨s.buses, s.calls ++ [.sendCanSignal signal value catalog.signals]⟩))
      ∧ (lookupSignal nameObject.valuestring catalog.signals true = none →
          ∀ command, lookupCommand nameObject.valuestring catalog.commands = some command →
            receiveJsonWriteRequest cJSON_Parse catalog message s
              = .returned (true, ⟨s.buses, s.calls ++
                  [.commandHandler command nameObject.valuestring value catalog.signals]⟩))
      ∧ (lookupSignal nameObject.valuestring catalog.signals true = none →
          lookupCommand nameObject.valuestring catalog.commands = none →
            receiveJsonWriteRequest cJSON_Parse catalog message s = .returned (true, s)) := by
  refine ⟨?_, ?_, ?_⟩
  · intro signal hs
    simp [receiveJsonWriteRequest, hparse, hname, receiveTranslatedWriteRequest, hvalue, hs,
      record]
  · intro hs command hc
    simp [receiveJsonWriteRequest, hparse, hname, receiveTranslatedWriteRequest, hvalue, hs,
      hc, record]
  · intro hs hc
    simp [receiveJsonWriteRequest, hparse, hname, receiveTranslatedWriteRequest, hvalue, hs,
      hc]

/-- C5 witness: a write to the writable signal `X`, for which a command of the
same name exists, in an object that also carries `id` and `data`. -/
theorem receiveJsonWriteRequest_translated_dispatch_witness :
    (fun _ => some namedWriteObject : List Nat → Option (List cJSON)) [] = some namedWriteObject
      ∧ cJSON_GetObjectItem namedWriteObject "name" = some ⟨"name", some "X", 0⟩
      ∧ cJSON_GetObjectItem namedWriteObject "value" = some ⟨"value", none, 5⟩
      ∧ lookupSignal (some "X") sampleCatalog.signals true = some ⟨"X", 1, 0, 8, true⟩
      ∧ lookupCommand (some "X") sampleCatalog.commands = some ⟨"X", 7⟩
      ∧ receiveJsonWriteRequest (fun _ => some namedWriteObject) sampleCatalog []
            ⟨[idleBus], []⟩
          = .returned (true, ⟨[idleBus],
              [.sendCanSignal ⟨"X", 1, 0, 8, true⟩ ⟨"value", none, 5⟩ sampleCatalog.signals]⟩)
      ∧ ((∀ signal,
            lookupSignal (cJSON.mk "name" (some "X") 0).valuestring sampleCatalog.signals true
              = some signal →
            receiveJsonWriteRequest (fun _ => some namedWriteObject) sampleCatalog []
                ⟨[idleBus], []⟩
              = .returned (true, ⟨(State.mk [idleBus] []).buses,
                  (State.mk [idleBus] []).calls ++
                    [.sendCanSignal signal ⟨"value", none, 5⟩ sampleCatalog.signals]⟩))
        ∧ (lookupSignal (cJSON.mk "name" (some "X") 0).valuestring sampleCatalog.signals true
              = none →
            ∀ command,
              lookupCommand (cJSON.mk "name" (some "X") 0).valuestring sampleCatalog.commands
                = some command →
              receiveJsonWriteRequest (fun _ => some namedWriteObject) sampleCatalog []
                  ⟨[idleBus], []⟩
                = .returned (true, ⟨(State.mk [idleBus] []).buses,
                    (State.mk [idleBus] []).calls ++
                      [.commandHandler command (cJSON.mk "name" (some "X") 0).valuestring
                        ⟨"value", none, 5⟩ sampleCatalog.signals]⟩))
        ∧ (lookupSignal (cJSON.mk "name" (some "X") 0).valuestring sampleCatalog.signals true
              = none →
            lookupCommand (cJSON.mk "name" (some "X") 0).valuestring sampleCatalog.commands
              = none →
              receiveJsonWriteRequest (fun _ => some namedWriteObject) sampleCatalog []
                  ⟨[idleBus], []⟩
                = .returned (true, ⟨[idleBus], []⟩))) :=
  ⟨rfl, by decide, by decide, by decide, by decide, by decide,
    receiveJsonWriteRequest_translated_dispatch (fun _ => some namedWriteObject) sampleCatalog
      [] namedWriteObject ⟨"name", some "X", 0⟩ ⟨"value", none, 5⟩ ⟨[idleBus], []⟩ rfl
      (by decide) (by decide)⟩

/-- C7: a parsed object that (a) has `name` but no `value`, or (b) has no
`name`, has `id` but no `data`, or (c) has neither `name` nor `id` is dropped:
`receiveJsonWriteRequest` returns, reports a message and leaves the state
unchanged, so no queue changes and no collaborator is called, whatever the
catalog holds under the name. -/
theorem receiveJsonWriteRequest_missing_field_dropped
    (cJSON_Parse : List Nat → Option (List cJSON)) (catalog : Catalog) (message : List Nat)
    (root : List cJSON) (s : State) (hparse : cJSON_Parse message = some root)
    (hmissing :
      ((cJSON_GetObjectItem root "name").isSome ∧ cJSON_GetObjectItem root "value" = none)
      ∨ (cJSON_GetObjectItem root "name" = none ∧ (cJSON_GetObjectItem root "id").isSome
          ∧ cJSON_GetObjectItem root "data" = none)
      ∨ (cJSON_GetObjectItem root "name" = none ∧ cJSON_GetObjectItem root "id" = none)) :
    receiveJsonWriteRequest cJSON_Parse catalog message s = .returned (true, s) := by
  rcases hmissing with ⟨hname, hvalue⟩ | ⟨hname, hid, hdata⟩ | ⟨hname, hid⟩
  · obtain ⟨nameObject, hn⟩ := Option.isSome_iff_exists.mp hname
    simp [receiveJsonWriteRequest, hparse, hn, receiveTranslatedWriteRequest, hvalue]
  · obtain ⟨idObject, hi⟩ := Option.isSome_iff_exists.mp hid
    simp [receiveJsonWriteRequest, hparse, hname, hi, receiveRawWriteRequest, hdata]
  · simp [receiveJsonWriteRequest, hparse, hname, hid]

/-- C7 witness: a write to the known writable signal `X` that has no `value`
field. -/
theorem receiveJsonWriteRequest_missing_field_dropped_witness :
    (fun _ => some missingValueObject : List Nat → Option (List cJSON)) []
        = some missingValueObject
      ∧ lookupSignal (some "X") sampleCatalog.signals true = some ⟨"X", 1, 0, 8, true⟩
      ∧ (((cJSON_GetObjectItem missingValueObject "name").isSome
            ∧ cJSON_GetObjectItem missingValueObject "value" = none)
          ∨ (cJSON_GetObjectItem missingValueObject "name" = none
              ∧ (cJSON_GetObjectItem missingValueObject "id").isSome
              ∧ cJSON_GetObjectItem missingValueObject "data" = none)
          ∨ (cJSON_GetObjectItem missingValueObject "name" = none
              ∧ cJSON_GetObjectItem missingValueObject "id" = none))
      ∧ receiveJsonWriteRequest (fun _ => some missingValueObject) sampleCatalog []
          ⟨[idleBus], []⟩ = .returned (true, ⟨[idleBus], []⟩) :=
  ⟨rfl, by decide, by decide,
    receiveJsonWriteRequest_missing_field_dropped (fun _ => some missingValueObject)
      sampleCatalog [] missingValueObject ⟨[idleBus], []⟩ rfl (by decide)⟩

/-! ## Lemmas on the bit-field codec -/

theorem bitsInOrder_within_byte (buffer : List Nat) (pos count : Nat)
    (h : pos % 8 + count ≤ 8) :
    bitsInOrder buffer pos count
      = (buffer.getD (pos / 8) 0 / 2 ^ (8 - pos % 8 - count)) % 2 ^ count := by
  induction count with
  | zero => simp [bitsInOrder, Nat.mod_one]
  | succ t ih =>
    have hdiv : (pos + t) / 8 = pos / 8 := by omega
    have hmod : (pos + t) % 8 = pos % 8 + t := by omega
    have he : 8 - pos % 8 - t = (8 - pos % 8 - (t + 1)) + 1 := by omega
    have h7 : 7 - (pos % 8 + t) = 8 - pos % 8 - (t + 1) := by omega
    simp only [bitsInOrder, bitAt, hdiv, hmod, ih (by omega), h7]
    rw [he, pow_succ, ← Nat.div_div_eq_div_mul, pow_succ, Nat.mul_comm (2 ^ t) 2,
      Nat.mod_mul]
    omega

theorem bitsInOrder_add (buffer : List Nat) (pos a b : Nat) :
    bitsInOrder buffer pos (a + b)
      = bitsInOrder buffer pos a * 2 ^ b + bitsInOrder buffer (pos + a) b := by
  induction b with
  | zero => simp [bitsInOrder]
  | succ n ih =>
    rw [← Nat.add_assoc]
    simp only [bitsInOrder, ih, pow_succ, Nat.add_assoc]
    ring

theorem bitsInOrder_lt (buffer : List Nat) (pos n : Nat) :
    bitsInOrder buffer pos n < 2 ^ n := by
  induction n with
  | zero => simp [bitsInOrder]
  | succ n ih =>
    have hbit : bitAt buffer (pos + n) < 2 := Nat.mod_lt _ (by decide)
    simp only [bitsInOrder, pow_succ]
    omega

theorem getBitFieldWalk_succ (buffer : List Nat) (fuel pos remaining acc byte : Nat)
    (h0 : remaining ≠ 0) (hb : buffer[pos / 8]? = some byte) :
    getBitFieldWalk buffer (fuel + 1) pos remaining acc
      = getBitFieldWalk buffer fuel (pos + min (8 - pos % 8) remaining)
          (remaining - min (8 - pos % 8) remaining)
          ((acc * 2 ^ min (8 - pos % 8) remaining
            + (byte / 2 ^ (8 - pos % 8 - min (8 - pos % 8) remaining))
                % 2 ^ min (8 - pos % 8) remaining) % 2 ^ 64) := by
  rw [getBitFieldWalk, if_neg h0, hb]

theorem getBitFieldWalk_eq (buffer : List Nat) (fuel pos remaining acc width : Nat)
    (hfuel : remaining ≤ fuel) (hacc : acc < 2 ^ width) (hwidth : width + remaining ≤ 64)
    (hrange : pos + remaining ≤ 8 * buffer.length) :
    getBitFieldWalk buffer fuel pos remaining acc
      = some (acc * 2 ^ remaining + bitsInOrder buffer pos remaining) := by
  induction fuel generalizing pos remaining acc width with
  | zero =>
    have h0 : remaining = 0 := by omega
    subst h0
    simp [getBitFieldWalk, bitsInOrder]
  | succ fuel ih =>
    by_cases h0 : remaining = 0
    · subst h0
      simp [getBitFieldWalk, bitsInOrder]
    · have hlt : pos / 8 < buffer.length := by omega
      have hcount : pos % 8 + min (8 - pos % 8) remaining ≤ 8 := by omega
      have hbits := bitsInOrder_within_byte buffer pos (min (8 - pos % 8) remaining) hcount
      rw [List.getD_eq_getElem _ _ hlt] at hbits
      have hsplit := bitsInOrder_add buffer pos (min (8 - pos % 8) remaining)
        (remaining - min (8 - pos % 8) remaining)
      rw [Nat.add_sub_cancel' (Nat.min_le_right _ _)] at hsplit
      have hpart := bitsInOrder_lt buffer pos (min (8 - pos % 8) remaining)
      have hnew : acc * 2 ^ min (8 - pos % 8) remaining
          + bitsInOrder buffer pos (min (8 - pos % 8) remaining)
          < 2 ^ (width + min (8 - pos % 8) remaining) := by
        rw [pow_add]
        have : (acc + 1) * 2 ^ min (8 - pos % 8) remaining
            ≤ 2 ^ width * 2 ^ min (8 - pos % 8) remaining :=
          Nat.mul_le_mul_right _ hacc
        rw [Nat.add_mul, Nat.one_mul] at this
        omega
      have hfit : 2 ^ (width + min (8 - pos % 8) remaining) ≤ 2 ^ 64 :=
        Nat.pow_le_pow_right (by decide) (by omega)
      rw [getBitFieldWalk_succ buffer fuel pos remaining acc _ h0
        (List.getElem?_eq_getElem hlt), ← hbits]
      rw [Nat.mod_eq_of_lt (lt_of_lt_of_le hnew hfit)]
      rw [ih (pos + min (8 - pos % 8) remaining) (remaining - min (8 - pos % 8) remaining) _
        (width + min (8 - pos % 8) remaining) (by omega) hnew (by omega) (by omega)]
      rw [hsplit]
      congr 1
      have hpow : 2 ^ remaining = 2 ^ min (8 - pos % 8) remaining
          * 2 ^ (remaining - min (8 - pos % 8) remaining) := by
        rw [← pow_add, Nat.add_sub_cancel' (Nat.min_le_right _ _)]
      rw [hpow]
      ring

theorem receiveCan_eq (bus : CanBus) :
    receiveCan bus = (withoutOldest bus, (decodeOfOldest bus).toList) := by
  obtain ⟨⟨capacity, items⟩, sendQueue⟩ := bus
  cases items with
  | nil => rfl
  | cons m rest => rfl

theorem receiveAllCan_eq (buses : List CanBus) :
    receiveAllCan buses = (buses.map withoutOldest, buses.filterMap decodeOfOldest) := by
  induction buses with
  | nil => rfl
  | cons bus rest ih =>
    simp only [receiveAllCan, ih, receiveCan_eq, List.map_cons, List.filterMap_cons]
    cases h : decodeOfOldest bus <;> simp

/-! ## Claims on the bit-field codec and the receive pass -/

/-- C8: for every buffer and every bit range with numBits ≤ 64 that lies
inside the buffer, `getBitField` returns the right-aligned unsigned integer
formed by the bits startBit .. startBit+numBits-1 read in order, bit 0 being
the most significant bit of byte 0 and bit 8 that of byte 1; on the one-byte
buffer 0xFA it returns 0xF for (0,4), 0xA for (4,4) and 0xFA for (0,8). -/
theorem getBitField_reads_bits_in_order (buffer : List Nat) (startBit numBits : Nat)
    (hbits : numBits ≤ 64) (hrange : startBit + numBits ≤ 8 * buffer.length) :
    getBitField buffer startBit numBits = some (bitsInOrder buffer startBit numBits)
      ∧ bitAt buffer 0 = (buffer.getD 0 0 / 128) % 2
      ∧ bitAt buffer 8 = (buffer.getD 1 0 / 128) % 2
      ∧ getBitField [0xFA] 0 4 = some 0xF
      ∧ getBitField [0xFA] 4 4 = some 0xA
      ∧ getBitField [0xFA] 0 8 = some 0xFA := by
  refine ⟨?_, by simp [bitAt], by simp [bitAt], by decide, by decide, by decide⟩
  have h := getBitFieldWalk_eq buffer numBits startBit numBits 0 0 (Nat.le_refl _)
    (by decide) (by omega) hrange
  simpa [getBitField] using h

/-- C8 witness: 17 bits from bit 3 of the buffer FA 12 34, a range that
crosses two byte boundaries. -/
theorem getBitField_reads_bits_in_order_witness :
    17 ≤ 64 ∧ 3 + 17 ≤ 8 * [0xFA, 0x12, 0x34].length
      ∧ bitsInOrder [0xFA, 0x12, 0x34] 3 17 = 0x1A123
      ∧ (getBitField [0xFA, 0x12, 0x34] 3 17 = some (bitsInOrder [0xFA, 0x12, 0x34] 3 17)
        ∧ bitAt [0xFA, 0x12, 0x34] 0 = (([0xFA, 0x12, 0x34] : List Nat).getD 0 0 / 128) % 2
        ∧ bitAt [0xFA, 0x12, 0x34] 8 = (([0xFA, 0x12, 0x34] : List Nat).getD 1 0 / 128) % 2
        ∧ getBitField [0xFA] 0 4 = some 0xF
        ∧ getBitField [0xFA] 4 4 = some 0xA
        ∧ getBitField [0xFA] 0 8 = some 0xFA) :=
  ⟨by decide, by decide, by decide,
    getBitField_reads_bits_in_order [0xFA, 0x12, 0x34] 3 17 (by decide) (by decide)⟩

/-- C9: one call of `receiveCan` on a bus whose receive queue is not empty pops
exactly the oldest message, makes exactly one `decodeCanMessage` call with that
message's id and data and leaves the other messages queued in their order; on
an empty receive queue it changes nothing and makes no call. One `loop()`
iteration does this once for every bus, in bus order: each bus loses at most
its oldest received message, and the decode calls are those of the non-empty
buses. -/
theorem receiveCan_pops_at_most_one (bus : CanBus) (s : State) :
    (∀ m rest, bus.receiveQueue.items = m :: rest →
        receiveCan bus = (⟨⟨bus.receiveQueue.capacity, rest⟩, bus.sendQueue⟩,
          [.decodeCanMessage m.id m.data]))
      ∧ (bus.receiveQueue.items = [] → receiveCan bus = (bus, []))
      ∧ (loop s).buses = s.buses.map withoutOldest
      ∧ (loop s).calls = s.calls ++ s.buses.filterMap decodeOfOldest
          ++ [.processListenerQueues, .readFromHost, .readFromSerial]
          ++ (List.range s.buses.length).map .processCanWriteQueue := by
  refine ⟨?_, ?_, ?_, ?_⟩
  · intro m rest h
    obtain ⟨⟨capacity, items⟩, sendQueue⟩ := bus
    simp only at h
    subst h
    rfl
  · intro h
    obtain ⟨⟨capacity, items⟩, sendQueue⟩ := bus
    simp only at h
    subst h
    rfl
  · simp [loop, receiveAllCan_eq]
  · simp [loop, receiveAllCan_eq]

/-- C9 witness: three buses holding two, zero and one received messages. -/
theorem receiveCan_pops_at_most_one_witness :
    (loop busyState).buses
        = [⟨⟨4, [⟨3, 4⟩]⟩, ⟨4, []⟩⟩, ⟨⟨4, []⟩, ⟨4, []⟩⟩, ⟨⟨4, []⟩, ⟨4, []⟩⟩]
      ∧ (loop busyState).calls
        = [.decodeCanMessage 1 2, .decodeCanMessage 5 6, .processListenerQueues,
            .readFromHost, .readFromSerial, .processCanWriteQueue 0, .processCanWriteQueue 1,
            .processCanWriteQueue 2]
      ∧ ((∀ m rest, (CanBus.mk ⟨4, [⟨1, 2⟩, ⟨3, 4⟩]⟩ ⟨4, []⟩).receiveQueue.items = m :: rest →
            receiveCan ⟨⟨4, [⟨1, 2⟩, ⟨3, 4⟩]⟩, ⟨4, []⟩⟩
              = (⟨⟨(CanBus.mk ⟨4, [⟨1, 2⟩, ⟨3, 4⟩]⟩ ⟨4, []⟩).receiveQueue.capacity, rest⟩,
                  (CanBus.mk ⟨4, [⟨1, 2⟩, ⟨3, 4⟩]⟩ ⟨4, []⟩).sendQueue⟩,
                [.decodeCanMessage m.id m.data]))
        ∧ ((CanBus.mk ⟨4, [⟨1, 2⟩, ⟨3, 4⟩]⟩ ⟨4, []⟩).receiveQueue.items = [] →
            receiveCan ⟨⟨4, [⟨1, 2⟩, ⟨3, 4⟩]⟩, ⟨4, []⟩⟩
              = (⟨⟨4, [⟨1, 2⟩, ⟨3, 4⟩]⟩, ⟨4, []⟩⟩, []))
        ∧ (loop busyState).buses = busyState.buses.map withoutOldest
        ∧ (loop busyState).calls = busyState.calls ++ busyState.buses.filterMap decodeOfOldest
            ++ [.processListenerQueues, .readFromHost, .readFromSerial]
            ++ (List.range busyState.buses.length).map .processCanWriteQueue) :=
  ⟨by decide, by decide,
    receiveCan_pops_at_most_one ⟨⟨4, [⟨1, 2⟩, ⟨3, 4⟩]⟩, ⟨4, []⟩⟩ busyState⟩

end ViFirmware
